import Mathlib

/-!
# Verification development for package `sin`

A shallow embedding of `bad_request.go` and `debug_info.go`.

* Go strings are Lean strings (text in UTF-8, where cutting at the byte of the
  space character and cutting at the character agree). The slices of strings
  the formatters receive are only read, so they are Lean lists; the slices a
  serialization returns are freshly built, so they are values of `Slice`, which
  tells the nil slice from an empty one.
* A run-time panic is an explicit `Except.error`.
* `*BadRequest` values are addresses into an explicit heap, and a slice of
  violations is a header over a backing array in that heap, so that the
  in-place update of `WithFieldViolations`, the identity of the returned pointer
  and the sharing of backing arrays can be stated. A `*FieldViolation` may be
  nil.
* The two library functions the formatters call, `fmt.Sprintf` (with the `%v`
  verb) and `strings.Split`, are modelled on character lists.
* A value of the interface type `error` is nil or the data `NewDebugInfo` reads
  from it: its message and, when it can give one, its stack trace.
-/

namespace Sin

/-! ## Run-time failures -/

/-- Run-time panics reachable in the package. -/
inductive Panic where
  /-- Indexing a slice outside of its bounds: `index` and `len`. -/
  | indexOutOfRange (index len : Nat)
  /-- Dereferencing a pointer that addresses no object. -/
  | nilDereference
  deriving DecidableEq, Repr

/-- Equality of results is decidable, so that closed instances can be evaluated. -/
instance instDecidableEqExcept {ε α : Type} [DecidableEq ε] [DecidableEq α] :
    DecidableEq (Except ε α)
  | .ok a, .ok b =>
    if h : a = b then isTrue (by rw [h]) else isFalse (fun h2 => h (Except.ok.inj h2))
  | .error a, .error b =>
    if h : a = b then isTrue (by rw [h]) else isFalse (fun h2 => h (Except.error.inj h2))
  | .ok _, .error _ => isFalse (fun h => Except.noConfusion h)
  | .error _, .ok _ => isFalse (fun h => Except.noConfusion h)

/-! ## `fmt.Sprintf` with the `%v` verb -/

/-- Operands handed to `fmt.Sprintf` in this package: a string or a `[]string`. -/
inductive Value where
  | str (s : String)
  | strs (xs : List String)
  deriving DecidableEq, Repr

/-- Elements of a slice under `%v`: a single space before every element but the first. -/
def renderElems : List String → List Char
  | [] => []
  | [x] => x.data
  | x :: y :: rest => x.data ++ ' ' :: renderElems (y :: rest)

/-- The `%v` rendering of an operand: a string verbatim, a slice as `[e1 e2 ...]`. -/
def Value.render : Value → List Char
  | .str s => s.data
  | .strs xs => '[' :: (renderElems xs ++ [']'])

/-- The Go type name of an operand, as printed in `%!(EXTRA ...)`. -/
def Value.typeName : Value → List Char
  | .str _ => "string".data
  | .strs _ => "[]string".data

/-- Operands left over after the format is exhausted: `type=value`, comma separated. -/
def renderExtra : List Value → List Char
  | [] => []
  | [a] => a.typeName ++ '=' :: a.render
  | a :: b :: rest => a.typeName ++ '=' :: a.render ++ ',' :: ' ' :: renderExtra (b :: rest)

/-- The scan of `fmt.Sprintf` over the format: `%v` consumes the next operand
(`%!v(MISSING)` if there is none), `%%` is a percent sign, every other
character is copied, and unused operands are reported at the end. No other use
of the percent sign occurs in the formats of the package; it is copied as it
stands. -/
def sprintfAux : List Char → List Value → List Char
  | '%' :: 'v' :: rest, a :: args => a.render ++ sprintfAux rest args
  | '%' :: 'v' :: rest, [] => "%!v(MISSING)".data ++ sprintfAux rest []
  | '%' :: '%' :: rest, args => '%' :: sprintfAux rest args
  | c :: rest, args => c :: sprintfAux rest args
  | [], [] => []
  | [], a :: args => "%!(EXTRA ".data ++ renderExtra (a :: args) ++ [')']

/-- The model of `fmt.Sprintf(format, args...)`. -/
def Sprintf (format : String) (args : List Value) : String :=
  ⟨sprintfAux format.data args⟩

/-! ## `strings.Split` -/

/-- The scan of `strings.Split` for a non-empty separator. The list returned is
never empty and its head is the piece under construction. `skip` counts the
characters of a separator just matched that are still to be passed over. -/
def splitAux (sep : List Char) : List Char → Nat → List (List Char)
  | [], _ => [[]]
  | _ :: cs, skip + 1 => splitAux sep cs skip
  | c :: cs, 0 =>
    if sep.isPrefixOf (c :: cs) then
      [] :: splitAux sep cs (sep.length - 1)
    else
      match splitAux sep cs 0 with
      | p :: ps => (c :: p) :: ps
      | [] => [[c]]

/-- The model of `strings.Split(s, sep)`: the substrings of `s` between the
occurrences of `sep`, found left to right; with an empty separator, the
characters of `s` one by one. -/
def Split (s sep : String) : List String :=
  if sep.data = [] then s.data.map fun c => ⟨[c]⟩
  else (splitAux sep.data s.data 0).map fun p => ⟨p⟩

/-! ## Field violations and the formatter registry -/

/-- The struct `FieldViolation`. -/
structure FieldViolation where
  field : String
  description : String
  deriving DecidableEq, Repr

/-- The function type `formatter`; an error is a panic of the function body. -/
abbrev formatter := String → List String → Except Panic String

/-- The expression `params[0]`. -/
def index0 (params : List String) : Except Panic String :=
  match params with
  | [] => .error (.indexOutOfRange 0 0)
  | p :: _ => .ok p

/-- The map literal `ruleToFormatter`, entry by entry in source order. -/
def ruleToFormatterEntries : List (String × formatter) :=
  [ ("required", fun field _ =>
      .ok (Sprintf "%v can't be blank" [.str field])),
    ("max", fun field params => do
      let count ← index0 params
      if count = "1" then
        .ok (Sprintf "%v is too long (maximum is %v character)" [.str field, .str count])
      else
        .ok (Sprintf "%v is too long (maximum is %v character)" [.str field, .str count])),
    ("min", fun field params => do
      let count ← index0 params
      if count = "1" then
        .ok (Sprintf "%v is too short (minimum is %v characters" [.str field, .str count])
      else
        .ok (Sprintf "%v is too short (minimum is %v characters)" [.str field, .str count])),
    ("numeric", fun field _ =>
      .ok (Sprintf "%v is not a number" [.str field])),
    ("gt", fun field params => do
      let threshold ← index0 params
      .ok (Sprintf "%v must be greater than %v" [.str field, .str threshold])),
    ("gte", fun field params => do
      let threshold ← index0 params
      .ok (Sprintf "%v must be greater than or equal to %v" [.str field, .str threshold])),
    ("eq", fun field params => do
      let threshold ← index0 params
      .ok (Sprintf "%v must be equal to %v" [.str field, .str threshold])),
    ("lt", fun field params => do
      let threshold ← index0 params
      .ok (Sprintf "%v must be less than %v" [.str field, .str threshold])),
    ("lte", fun field params => do
      let threshold ← index0 params
      .ok (Sprintf "%v must be less than or equal to %v" [.str field, .str threshold])),
    ("oneof", fun field params => do
      let arrayString ← index0 params
      let array := Split arrayString " "
      .ok (Sprintf "%v is not included in the list %v" [.str field, .strs array])),
    ("invalid", fun field _ =>
      .ok (Sprintf "%v is invalid" [.str field])) ]

/-- The map `ruleToFormatter`: the lookup `ruleToFormatter[rule]`, `none` when
the key is absent. -/
def ruleToFormatter (rule : String) : Option formatter :=
  ruleToFormatterEntries.lookup rule

/-- The keys of `ruleToFormatter`. -/
def ruleKeys : List String := ruleToFormatterEntries.map Prod.fst

/-- The function `NewFieldViolationWithRule`. The index expression
`ruleToFormatter["invalid"]` on a missing key would give the nil function,
whose call panics. -/
def NewFieldViolationWithRule (field rule : String) (params : List String) :
    Except Panic FieldViolation := do
  let formatter ←
    match ruleToFormatter rule with
    | some f => pure f
    | none =>
      match ruleToFormatter "invalid" with
      | some f => pure f
      | none => throw Panic.nilDereference
  let description ← formatter field params
  pure { field := field, description := description }

/-- The function `NewFieldViolation`. -/
def NewFieldViolation (field description : String) : FieldViolation :=
  { field := field, description := description }

/-! ## Proto messages -/

/-- A Go slice value as its reader sees it: the nil slice, or a sequence of
elements (possibly none). -/
inductive Slice (α : Type) where
  | nil
  | mk (elems : List α)
  deriving DecidableEq, Repr

/-- The elements of a slice in order; the nil slice has none. -/
def Slice.toList {α : Type} : Slice α → List α
  | .nil => []
  | .mk elems => elems

/-- The builtin `append(s, x)` with one element: the result is never nil. -/
def Slice.append1 {α : Type} (s : Slice α) (x : α) : Slice α :=
  .mk (s.toList ++ [x])

/-- The message `edpb.BadRequest_FieldViolation`. -/
structure edpb.BadRequest_FieldViolation where
  Field : String
  Description : String
  deriving DecidableEq, Repr

/-- The message `edpb.BadRequest`. -/
structure edpb.BadRequest where
  FieldViolations : Slice edpb.BadRequest_FieldViolation
  deriving DecidableEq, Repr

/-- The method `FieldViolation.Serialize`. -/
def FieldViolation.Serialize (v : FieldViolation) : edpb.BadRequest_FieldViolation :=
  { Field := v.field, Description := v.description }

/-! ## Memory -/

/-- A value of type `*FieldViolation`: nil, or a pointer to a violation. The
fields of a violation are assigned only by its two constructors, so a non-nil
pointer is given by the violation it points to. -/
abbrev FieldViolationPtr := Option FieldViolation

/-- The call `fv.Serialize()` through a pointer: the method body reads
`v.field`, which panics when the receiver is nil. -/
def serializePtr : FieldViolationPtr → Except Panic edpb.BadRequest_FieldViolation
  | none => .error .nilDereference
  | some v => .ok v.Serialize

/-- A value of type `[]*FieldViolation`: the backing array (none for the nil
slice), the position of the first element in it, the length and the capacity. -/
structure SliceHeader where
  array : Option Nat
  off : Nat
  len : Nat
  cap : Nat
  deriving DecidableEq, Repr

/-- The nil slice. -/
def SliceHeader.nil : SliceHeader :=
  { array := none, off := 0, len := 0, cap := 0 }

/-- The struct `BadRequest`. -/
structure BadRequest where
  fvs : SliceHeader
  deriving DecidableEq, Repr

/-- The memory the package works on: the backing arrays of the slices of
violations and the objects of type `BadRequest`, each addressed by its
position. -/
structure Heap where
  arrays : List (List FieldViolationPtr)
  objs : List BadRequest
  deriving DecidableEq, Repr

/-- A value of type `*BadRequest`. An address that holds no object stands for
the nil pointer. -/
abbrev Ptr := Nat

/-- The elements of a slice, as `range` visits them. -/
def Heap.read (h : Heap) (s : SliceHeader) : List FieldViolationPtr :=
  match s.array with
  | none => []
  | some a => ((h.arrays.getD a []).drop s.off).take s.len

/-- A slice the language can produce: the length is within the capacity and
the capacity is within the backing array. -/
def SliceHeader.Valid (h : Heap) (s : SliceHeader) : Prop :=
  s.len ≤ s.cap ∧
    match s.array with
    | none => s.cap = 0
    | some a => a < h.arrays.length ∧ s.off + s.cap ≤ (h.arrays.getD a []).length

/-- Validity of a slice can be computed. -/
instance SliceHeader.decidableValid (h : Heap) (s : SliceHeader) : Decidable (s.Valid h) := by
  unfold SliceHeader.Valid
  cases s.array <;> exact inferInstance

/-- The heap is well formed when the slice of every bad request is valid. -/
def Heap.WF (h : Heap) : Prop :=
  ∀ obj ∈ h.objs, obj.fvs.Valid h

/-- Well-formedness of a heap can be computed. -/
instance Heap.decidableWF (h : Heap) : Decidable h.WF := by
  unfold Heap.WF
  exact inferInstance

/-- Overwriting the elements of an array from position `i` on with `elems`. -/
def writeAt (arr : List FieldViolationPtr) (i : Nat) (elems : List FieldViolationPtr) :
    List FieldViolationPtr :=
  arr.take i ++ elems ++ arr.drop (i + elems.length)

/-- The builtin `append(s, elems...)`, the elements having been read before
anything is written. When they fit into the capacity they are written into the
backing array of `s` behind its last element; otherwise a new array is
allocated that holds the elements of `s`, then `elems`, then nil pointers up to
its capacity. The new capacity is chosen by the run time: `grow` stands for
that choice, given the old capacity and the length needed, and the capacity is
never below the length needed. -/
def appendSlice (grow : Nat → Nat → Nat) (s : SliceHeader) (elems : List FieldViolationPtr)
    (h : Heap) : SliceHeader × Heap :=
  if s.len + elems.length ≤ s.cap then
    match s.array with
    | none => (s, h)
    | some a =>
      ({ s with len := s.len + elems.length },
        { h with arrays :=
            h.arrays.set a (writeAt (h.arrays.getD a []) (s.off + s.len) elems) })
  else
    let newcap := max (s.len + elems.length) (grow s.cap (s.len + elems.length))
    ({ array := some h.arrays.length, off := 0, len := s.len + elems.length, cap := newcap },
      { h with arrays := h.arrays ++
          [h.read s ++ elems ++ List.replicate (newcap - (s.len + elems.length)) none] })

/-- The slice a variadic parameter receives when the call lists its arguments
one by one: nil for no argument, otherwise a new array that holds exactly the
arguments. -/
def variadic (args : List FieldViolationPtr) (h : Heap) : SliceHeader × Heap :=
  match args with
  | [] => (SliceHeader.nil, h)
  | _ :: _ =>
    ({ array := some h.arrays.length, off := 0, len := args.length, cap := args.length },
      { h with arrays := h.arrays ++ [args] })

/-! ## Bad requests -/

/-- The function `NewBadRequest`: allocates an object that keeps the slice it
was handed, with its backing array. -/
def NewBadRequest (fvs : SliceHeader) (h : Heap) : Ptr × Heap :=
  (h.objs.length, { h with objs := h.objs ++ [{ fvs := fvs }] })

/-- The method `BadRequest.WithFieldViolations`: assigns
`append(r.fvs, fvs...)` to the receiver's field and returns the receiver. -/
def BadRequest.WithFieldViolations (grow : Nat → Nat → Nat) (r : Ptr) (fvs : SliceHeader)
    (h : Heap) : Except Panic (Ptr × Heap) :=
  match h.objs[r]? with
  | none => .error .nilDereference
  | some obj =>
    let res := appendSlice grow obj.fvs (h.read fvs) h
    .ok (r, { res.2 with objs := res.2.objs.set r { fvs := res.1 } })

/-- The loop of `BadRequest.Serialize`: each element is serialized through its
pointer and appended to `fvpbs`; a nil element stops the loop with a panic. -/
def serializeLoop : List FieldViolationPtr → Slice edpb.BadRequest_FieldViolation →
    Except Panic (Slice edpb.BadRequest_FieldViolation)
  | [], fvpbs => .ok fvpbs
  | fv :: rest, fvpbs => do
    let fvpb ← serializePtr fv
    serializeLoop rest (fvpbs.append1 fvpb)

/-- The method `BadRequest.Serialize`: the loop runs over the receiver's slice
with `fvpbs` starting nil. -/
def BadRequest.Serialize (r : Ptr) (h : Heap) : Except Panic edpb.BadRequest :=
  match h.objs[r]? with
  | none => .error .nilDereference
  | some obj => do
    let fvpbs ← serializeLoop (h.read obj.fvs) .nil
    pure { FieldViolations := fvpbs }

/-! ## Debug info -/

/-- The type `errors.Frame` of the library `github.com/pkg/errors`: a program
counter, given here by what the run-time symbol table yields for it, the
function name, the file and the line ("unknown", "unknown" and 0 when the table
has no entry for it). -/
structure Frame where
  name : String
  file : String
  line : Nat
  deriving DecidableEq, Repr

/-- The call `fmt.Sprintf("%+v", e)` on a frame. `Frame` has a method `Format`,
so `fmt` hands the verb to it, and for the verb `v` with the flag `+` the method
writes the function name, a newline and a tab, the file, a colon and the line in
decimal. -/
def Frame.sprintfPlusV (e : Frame) : String :=
  e.name ++ "\n\t" ++ e.file ++ ":" ++ toString e.line

/-- The dynamic value of a non-nil `error`, as `NewDebugInfo` reads it: the
string its method `Error` returns and, when its dynamic type has a method
`StackTrace() errors.StackTrace`, the frames that method returns. -/
structure GoError where
  Error : String
  StackTrace : Option (List Frame)
  deriving DecidableEq, Repr

/-- A value of the interface type `error`: nil, or a dynamic value. -/
abbrev ErrorValue := Option GoError

/-- The struct `DebugInfo`. The field `st` is only read by `range`, so it is a
list; it is empty when it was left at its zero value. -/
structure DebugInfo where
  st : List Frame
  detail : String
  deriving DecidableEq, Repr

/-- The message `edpb.DebugInfo`. -/
structure edpb.DebugInfo where
  StackEntries : Slice String
  Detail : String
  deriving DecidableEq, Repr

/-- The function `NewDebugInfo`. The type assertion to `stackTracer` is of the
comma-ok form: it fails without a panic on the nil error and on an error
without the method `StackTrace`. The call `err.Error()` panics on the nil
error. -/
def NewDebugInfo (err : ErrorValue) : Except Panic DebugInfo := do
  let st : List Frame :=
    match err with
    | some e =>
      match e.StackTrace with
      | some frames => frames
      | none => []
    | none => []
  let detail ←
    match err with
    | some e => pure e.Error
    | none => throw Panic.nilDereference
  pure { st := st, detail := detail }

/-- The method `DebugInfo.Serialize`: the loop appends the rendering of each
frame to a slice that starts nil. -/
def DebugInfo.Serialize (i : DebugInfo) : edpb.DebugInfo :=
  { StackEntries :=
      i.st.foldl (fun stackEntries e => stackEntries.append1 e.sprintfPlusV) .nil,
    Detail := i.detail }

/-! ## Auxiliary facts -/

/-- A rule outside the eleven keys is absent from the map. -/
theorem ruleToFormatter_eq_none (rule : String)
    (h : rule ∉ ["required", "max", "min", "numeric", "gt", "gte", "eq", "lt", "lte",
      "oneof", "invalid"]) : ruleToFormatter rule = none := by
  unfold ruleToFormatter
  rw [List.lookup_eq_none_iff]
  intro p hp
  simp only [ruleToFormatterEntries, List.mem_cons, List.mem_singleton, List.not_mem_nil,
    or_false] at hp
  simp only [List.mem_cons, List.mem_singleton, List.not_mem_nil, or_false, not_or] at h
  rcases hp with hp | hp | hp | hp | hp | hp | hp | hp | hp | hp | hp <;> subst hp <;> simp [h]

/-- A word without a space that occurs in `a ++ ' ' :: b` occurs in `a` or in `b`. -/
theorem infix_of_infix_append_space (w a b : List Char) (hw : ' ' ∉ w)
    (h : w <:+: a ++ ' ' :: b) : w <:+: a ∨ w <:+: b := by
  obtain ⟨s, t, hst⟩ := h
  rw [List.append_assoc, List.append_eq_append_iff] at hst
  rcases hst with ⟨a', ha, hwt⟩ | ⟨c', hs, hb⟩
  · rw [List.append_eq_append_iff] at hwt
    rcases hwt with ⟨x, hx, _⟩ | ⟨c, hc, hcb⟩
    · left
      exact ⟨s, x, by rw [ha, hx, List.append_assoc]⟩
    · cases c with
      | nil =>
        left
        exact ⟨s, [], by rw [ha, hc]; simp⟩
      | cons d c =>
        simp only [List.cons_append, List.cons.injEq] at hcb
        exact absurd (by rw [hc, ← hcb.1]; simp) hw
  · cases c' with
    | nil =>
      cases w with
      | nil => left; exact List.nil_infix
      | cons d w =>
        simp only [List.nil_append, List.cons_append, List.cons.injEq] at hb
        exact absurd (by rw [← hb.1]; simp) hw
    | cons d c' =>
      simp only [List.cons_append, List.cons.injEq] at hb
      right
      exact ⟨c', t, by rw [hb.2, List.append_assoc]⟩

/-- The violation built by rule "min" from a first parameter `c`. -/
theorem NewFieldViolationWithRule_min (field c : String) (rest : List String) :
    NewFieldViolationWithRule field "min" (c :: rest) =
      .ok { field := field, description :=
        if c = "1" then field ++ " is too short (minimum is 1 characters"
        else field ++ " is too short (minimum is " ++ c ++ " characters)" } := by
  by_cases hc : c = "1"
  · subst hc; rfl
  · have hrun : NewFieldViolationWithRule field "min" (c :: rest) =
      (if c = "1" then
        .ok (Sprintf "%v is too short (minimum is %v characters" [.str field, .str c])
      else
        .ok (Sprintf "%v is too short (minimum is %v characters)" [.str field, .str c])
        : Except Panic String) >>= fun d => pure { field := field, description := d } := rfl
    rw [hrun, if_neg hc, if_neg hc]
    show Except.ok _ = _
    congr 2
    apply String.ext
    simp [Sprintf, sprintfAux, Value.render]

/-- The violation built by rule "max" from a first parameter `c`. -/
theorem NewFieldViolationWithRule_max (field c : String) (rest : List String) :
    NewFieldViolationWithRule field "max" (c :: rest) =
      .ok { field := field,
            description := field ++ " is too long (maximum is " ++ c ++ " character)" } := by
  have hrun : NewFieldViolationWithRule field "max" (c :: rest) =
      (if c = "1" then
        .ok (Sprintf "%v is too long (maximum is %v character)" [.str field, .str c])
      else
        .ok (Sprintf "%v is too long (maximum is %v character)" [.str field, .str c])
        : Except Panic String) >>= fun d => pure { field := field, description := d } := rfl
  rw [hrun, ite_self]
  show Except.ok _ = _
  congr 2
  apply String.ext
  simp [Sprintf, sprintfAux, Value.render]

/-- The violation built for a rule outside the eleven keys. -/
theorem NewFieldViolationWithRule_unknown (field rule : String) (params : List String)
    (h : rule ∉ ["required", "max", "min", "numeric", "gt", "gte", "eq", "lt", "lte",
      "oneof", "invalid"]) :
    NewFieldViolationWithRule field rule params
      = .ok { field := field, description := field ++ " is invalid" } := by
  simp only [NewFieldViolationWithRule, ruleToFormatter_eq_none rule h]
  rfl

/-- The scan of `Split` never returns the empty list. -/
theorem splitAux_ne_nil (sep cs : List Char) (skip : Nat) : splitAux sep cs skip ≠ [] := by
  induction cs generalizing skip with
  | nil => simp [splitAux]
  | cons c cs ih =>
    cases skip with
    | succ k => rw [splitAux]; exact ih k
    | zero =>
      rw [splitAux]
      split
      · simp
      · split <;> simp

/-- One step of the scan for the separator " ". -/
theorem splitAux_space_cons (c : Char) (cs : List Char) :
    splitAux [' '] (c :: cs) 0 =
      if c = ' ' then [] :: splitAux [' '] cs 0
      else match splitAux [' '] cs 0 with
        | p :: ps => (c :: p) :: ps
        | [] => [[c]] := by
  rw [splitAux]
  by_cases hc : c = ' '
  · subst hc; simp
  · have hc2 : ¬ ' ' = c := fun e => hc e.symm
    simp [hc, hc2, List.isPrefixOf]

/-- No piece cut at the separator " " contains a space. -/
theorem splitAux_space_no_space (cs : List Char) :
    ∀ p ∈ splitAux [' '] cs 0, ' ' ∉ p := by
  induction cs with
  | nil => simp [splitAux]
  | cons c cs ih =>
    rw [splitAux_space_cons]
    by_cases hc : c = ' '
    · simp only [hc, if_true, List.mem_cons]
      rintro p (hp | hp)
      · simp [hp]
      · exact ih p hp
    · simp only [hc, if_false]
      cases hsp : splitAux [' '] cs 0 with
      | nil => exact absurd hsp (splitAux_ne_nil _ _ _)
      | cons q qs =>
        rw [hsp] at ih
        simp only [List.mem_cons]
        rintro p (hp | hp)
        · subst hp
          simp only [List.mem_cons, not_or]
          exact ⟨fun e => hc e.symm, ih q (by simp)⟩
        · exact ih p (by simp [hp])

/-- The number of pieces cut at the separator " " is the number of spaces plus one. -/
theorem splitAux_space_length (cs : List Char) :
    (splitAux [' '] cs 0).length = cs.count ' ' + 1 := by
  induction cs with
  | nil => simp [splitAux]
  | cons c cs ih =>
    rw [splitAux_space_cons]
    by_cases hc : c = ' '
    · subst hc; simp [ih]
    · simp only [hc, if_false]
      cases hsp : splitAux [' '] cs 0 with
      | nil => exact absurd hsp (splitAux_ne_nil _ _ _)
      | cons q qs =>
        rw [hsp] at ih
        have hc2 : ' ' ≠ c := fun e => hc e.symm
        rw [List.count_cons_of_ne hc2]
        simpa using ih

/-- Putting a character in front of the first element puts it in front of the rendering. -/
theorem renderElems_cons_char (c : Char) (p : List Char) (rest : List String) :
    renderElems (⟨c :: p⟩ :: rest) = c :: renderElems (⟨p⟩ :: rest) := by
  cases rest <;> simp [renderElems]

/-- Rendering the pieces cut at " " with single spaces between them gives the
text back. -/
theorem renderElems_splitAux_space (cs : List Char) :
    renderElems ((splitAux [' '] cs 0).map fun p => ⟨p⟩) = cs := by
  induction cs with
  | nil => simp [splitAux, renderElems]
  | cons c cs ih =>
    rw [splitAux_space_cons]
    cases hsp : splitAux [' '] cs 0 with
    | nil => exact absurd hsp (splitAux_ne_nil _ _ _)
    | cons q qs =>
      rw [hsp] at ih
      by_cases hc : c = ' '
      · subst hc
        simp only [if_true, List.map_cons, renderElems, List.nil_append]
        rw [← ih]
        rfl
      · simp only [hc, if_false, List.map_cons]
        rw [renderElems_cons_char, ← ih]
        rfl

/-- The definition of `Split` at the separator " ". -/
theorem Split_space (s : String) :
    Split s " " = (splitAux [' '] s.data 0).map fun p => ⟨p⟩ := by
  unfold Split
  rw [if_neg (by decide)]

/-- The loop of `String.intercalate` with the separator " ". -/
theorem intercalate_go_space (xs : List String) (acc : String) :
    (String.intercalate.go acc " " xs).data
      = acc.data ++ (xs.map fun x => ' ' :: x.data).flatten := by
  induction xs generalizing acc with
  | nil => simp [String.intercalate.go]
  | cons x xs ih => simp [String.intercalate.go, ih]

/-- The elements of a slice under `%v` are the elements joined by single spaces. -/
theorem renderElems_eq_intercalate (xs : List String) :
    renderElems xs = (" ".intercalate xs).data := by
  cases xs with
  | nil => rfl
  | cons x xs =>
    rw [String.intercalate, intercalate_go_space]
    induction xs generalizing x with
    | nil => simp [renderElems]
    | cons y ys ih => simp [renderElems, ih y]

/-- The violation built by rule "oneof" from a first parameter `s`. -/
theorem NewFieldViolationWithRule_oneof (field s : String) (rest : List String) :
    NewFieldViolationWithRule field "oneof" (s :: rest)
      = .ok { field := field,
              description := field ++ " is not included in the list [" ++
                " ".intercalate (Split s " ") ++ "]" } := by
  show Except.ok _ = _
  congr 2
  apply String.ext
  simp [Sprintf, sprintfAux, Value.render, renderElems_eq_intercalate]

/-- The elements read from a valid slice are as many as its length. -/
theorem read_length (h : Heap) (s : SliceHeader) (hv : s.Valid h) :
    (h.read s).length = s.len := by
  unfold SliceHeader.Valid at hv
  unfold Heap.read
  cases hs : s.array with
  | none =>
    rw [hs] at hv
    simp only at hv ⊢
    simp
    omega
  | some a =>
    rw [hs] at hv
    simp only at hv ⊢
    rw [List.length_take, List.length_drop]
    omega

/-- Reading back a stretch of an array that ends in elements just written. -/
theorem read_writeAt (arr elems : List FieldViolationPtr) (i j : Nat)
    (hle : i + j + elems.length ≤ arr.length) :
    ((writeAt arr (i + j) elems).drop i).take (j + elems.length)
      = (arr.drop i).take j ++ elems := by
  unfold writeAt
  have h1 : (arr.take i).length = i := by rw [List.length_take]; omega
  have h2 : ((arr.drop i).take j).length = j := by
    rw [List.length_take, List.length_drop]; omega
  have ht := List.take_add arr i j
  rw [ht, List.append_assoc, List.append_assoc, List.drop_left' h1, ← List.append_assoc]
  exact List.take_left' (by rw [List.length_append, h2])

/-- Writing into an array keeps its length. -/
theorem length_writeAt (arr elems : List FieldViolationPtr) (i : Nat)
    (hle : i + elems.length ≤ arr.length) : (writeAt arr i elems).length = arr.length := by
  unfold writeAt
  simp only [List.length_append, List.length_take, List.length_drop]
  omega

/-- After `append` the slice returned holds the old elements followed by the
new ones, it is valid, and no object of type `BadRequest` has changed. -/
theorem appendSlice_spec (grow : Nat → Nat → Nat) (s : SliceHeader)
    (elems : List FieldViolationPtr) (h : Heap) (hv : s.Valid h) :
    (appendSlice grow s elems h).2.read (appendSlice grow s elems h).1 = h.read s ++ elems ∧
      (appendSlice grow s elems h).1.Valid (appendSlice grow s elems h).2 ∧
      (appendSlice grow s elems h).2.objs = h.objs := by
  have hlen := read_length h s hv
  unfold appendSlice
  by_cases hfit : s.len + elems.length ≤ s.cap
  · rw [if_pos hfit]
    cases hs : s.array with
    | none =>
      have hv2 := hv
      unfold SliceHeader.Valid at hv2
      rw [hs] at hv2
      simp only at hv2
      have he : elems = [] := List.eq_nil_of_length_eq_zero (by omega)
      simp [he, hv]
    | some a =>
      have hv2 := hv
      unfold SliceHeader.Valid at hv2
      rw [hs] at hv2
      simp only at hv2
      obtain ⟨hlc, ha, hcap⟩ := hv2
      have hget : (h.arrays.set a (writeAt (h.arrays.getD a []) (s.off + s.len) elems)).getD a []
          = writeAt (h.arrays.getD a []) (s.off + s.len) elems := by
        simp [List.getD_eq_getElem?_getD, ha]
      refine ⟨?_, ?_, rfl⟩
      · simp only [Heap.read, hs]
        rw [hget]
        exact read_writeAt _ _ _ _ (by omega)
      · unfold SliceHeader.Valid
        simp only [hs]
        rw [hget, length_writeAt _ _ _ (by omega)]
        refine ⟨hfit, ?_, hcap⟩
        simpa using ha
  · rw [if_neg hfit]
    dsimp only
    have hg : ∀ c : List FieldViolationPtr, (h.arrays ++ [c]).getD h.arrays.length [] = c := by
      intro c
      simp [List.getD_eq_getElem?_getD]
    refine ⟨?_, ?_, rfl⟩
    · rw [Heap.read]
      dsimp only
      rw [hg, List.drop_zero]
      exact List.take_left' (by rw [List.length_append, hlen])
    · unfold SliceHeader.Valid
      dsimp only
      rw [hg]
      refine ⟨Nat.le_max_left _ _, by simp, ?_⟩
      simp only [List.length_append, List.length_replicate, hlen]
      omega

/-- The loop of `BadRequest.Serialize` over pointers none of which is nil
returns, in order, the serialization of what each points to after the entries
it started with; the result is nil only if nothing was appended to nil. -/
theorem serializeLoop_ok (l : List FieldViolationPtr)
    (s0 : Slice edpb.BadRequest_FieldViolation) (hnn : ∀ p ∈ l, p ≠ none) :
    ∃ out, serializeLoop l s0 = .ok out ∧
      out.toList.map some
        = s0.toList.map some ++ l.map (Option.map FieldViolation.Serialize) ∧
      (l = [] → out = s0) ∧ (l ≠ [] → out ≠ Slice.nil) := by
  induction l generalizing s0 with
  | nil => exact ⟨s0, rfl, by simp, fun _ => rfl, fun hne => absurd rfl hne⟩
  | cons p l ih =>
    cases p with
    | none => exact absurd rfl (hnn none (by simp))
    | some v =>
      obtain ⟨out, hrun, hto, hnil, hne⟩ :=
        ih (s0.append1 v.Serialize) (fun q hq => hnn q (by simp [hq]))
      refine ⟨out, hrun, ?_, fun hc => absurd hc (by simp), fun _ => ?_⟩
      · rw [hto]
        cases s0 <;> simp [Slice.append1, Slice.toList]
      · cases l with
        | nil =>
          rw [hnil rfl]
          simp [Slice.append1]
        | cons q l => exact hne (by simp)

/-- The loop of `BadRequest.Serialize` panics when one of the pointers is nil. -/
theorem serializeLoop_error (l : List FieldViolationPtr)
    (s0 : Slice edpb.BadRequest_FieldViolation) (hmem : none ∈ l) :
    serializeLoop l s0 = .error .nilDereference := by
  induction l generalizing s0 with
  | nil => simp at hmem
  | cons p l ih =>
    cases p with
    | none => rfl
    | some v =>
      have hl : none ∈ l := by simpa using hmem
      exact ih (s0.append1 v.Serialize) hl

/-- Serializing an allocated object runs the loop over the elements of its slice. -/
theorem Serialize_of_get (r : Ptr) (h : Heap) (obj : BadRequest)
    (hr : h.objs[r]? = some obj) :
    BadRequest.Serialize r h
      = (serializeLoop (h.read obj.fvs) .nil).map fun fvpbs => ⟨fvpbs⟩ := by
  simp only [BadRequest.Serialize, hr]
  rfl

/-- Reading the address returned by `NewBadRequest` gives an object that holds
the slice handed in; no array changes. -/
theorem NewBadRequest_get (fvs : SliceHeader) (h : Heap) :
    (NewBadRequest fvs h).2.objs[(NewBadRequest fvs h).1]? = some { fvs := fvs } ∧
      (NewBadRequest fvs h).2.arrays = h.arrays := by
  simp [NewBadRequest]

/-- What a slice holds and whether it is valid depend on the arrays only. -/
theorem read_congr (h h2 : Heap) (s : SliceHeader) (ha : h2.arrays = h.arrays) :
    h2.read s = h.read s ∧ (s.Valid h → s.Valid h2) := by
  unfold Heap.read SliceHeader.Valid
  rw [ha]
  exact ⟨rfl, id⟩

/-- The effect of `WithFieldViolations` on an allocated object with a valid
slice: the receiver's address is returned, the object at that address holds the
old elements followed by those of the argument, its slice is valid, and no
object is allocated. -/
theorem WithFieldViolations_spec (grow : Nat → Nat → Nat) (r : Ptr) (vs : SliceHeader)
    (h : Heap) (obj : BadRequest) (hr : h.objs[r]? = some obj) (hv : obj.fvs.Valid h) :
    ∃ h2 obj2, BadRequest.WithFieldViolations grow r vs h = .ok (r, h2) ∧
      h2.objs[r]? = some obj2 ∧
      h2.read obj2.fvs = h.read obj.fvs ++ h.read vs ∧
      obj2.fvs.Valid h2 ∧
      h2.objs.length = h.objs.length := by
  obtain ⟨hread, hvalid, hobjs⟩ := appendSlice_spec grow obj.fvs (h.read vs) h hv
  have hlt : r < h.objs.length := by
    rcases Nat.lt_or_ge r h.objs.length with hlt | hge
    · exact hlt
    · rw [List.getElem?_eq_none hge] at hr
      exact Option.noConfusion hr
  have hc := read_congr (appendSlice grow obj.fvs (h.read vs) h).2
    { (appendSlice grow obj.fvs (h.read vs) h).2 with
      objs := (appendSlice grow obj.fvs (h.read vs) h).2.objs.set r
        { fvs := (appendSlice grow obj.fvs (h.read vs) h).1 } }
    (appendSlice grow obj.fvs (h.read vs) h).1 rfl
  refine ⟨{ (appendSlice grow obj.fvs (h.read vs) h).2 with
      objs := (appendSlice grow obj.fvs (h.read vs) h).2.objs.set r
        { fvs := (appendSlice grow obj.fvs (h.read vs) h).1 } },
    { fvs := (appendSlice grow obj.fvs (h.read vs) h).1 }, ?_, ?_, ?_, ?_, ?_⟩
  · simp only [BadRequest.WithFieldViolations, hr]
  · simp [hobjs, hlt]
  · exact hc.1.trans hread
  · exact hc.2 hvalid
  · simp [hobjs]

/-- Allocating further arrays keeps every valid slice valid, with the same
elements. -/
theorem valid_read_of_arrays_append (h h2 : Heap) (extra : List (List FieldViolationPtr))
    (ha : h2.arrays = h.arrays ++ extra) (s : SliceHeader) (hv : s.Valid h) :
    s.Valid h2 ∧ h2.read s = h.read s := by
  unfold SliceHeader.Valid at hv ⊢
  unfold Heap.read
  cases hs : s.array with
  | none =>
    rw [hs] at hv
    exact ⟨hv, rfl⟩
  | some a =>
    rw [hs] at hv
    obtain ⟨hlc, hlt, hcap⟩ := hv
    have hg : h2.arrays.getD a [] = h.arrays.getD a [] := by
      rw [ha]
      simp [List.getD_eq_getElem?_getD, List.getElem?_append_left hlt]
    dsimp only
    rw [hg]
    refine ⟨⟨hlc, ?_, hcap⟩, rfl⟩
    rw [ha, List.length_append]
    omega

/-- The slice of a call that lists its arguments is valid and holds exactly the
arguments; no object changes and the arrays already there are kept. -/
theorem variadic_spec (args : List FieldViolationPtr) (h : Heap) :
    (variadic args h).1.Valid (variadic args h).2 ∧
      (variadic args h).2.read (variadic args h).1 = args ∧
      (variadic args h).2.objs = h.objs ∧
      ∃ extra, (variadic args h).2.arrays = h.arrays ++ extra := by
  cases args with
  | nil =>
    refine ⟨?_, rfl, rfl, [], by simp [variadic]⟩
    simp [variadic, SliceHeader.Valid, SliceHeader.nil]
  | cons p args =>
    have hg : (h.arrays ++ [p :: args]).getD h.arrays.length [] = p :: args := by
      simp [List.getD_eq_getElem?_getD]
    refine ⟨?_, ?_, rfl, [p :: args], rfl⟩
    · unfold SliceHeader.Valid variadic
      dsimp only
      rw [hg]
      simp
    · unfold Heap.read variadic
      dsimp only
      rw [hg]
      simp

/-- The expression `NewBadRequest(first...).WithFieldViolations(more...).Serialize()`,
each call listing its arguments, runs the loop of `Serialize` over the arguments
of the first call followed by those of the second. -/
theorem chain_variadic (grow : Nat → Nat → Nat) (first more : List FieldViolationPtr)
    (h : Heap) :
    (do
      let a := variadic first h
      let r := NewBadRequest a.1 a.2
      let b := variadic more r.2
      let p ← BadRequest.WithFieldViolations grow r.1 b.1 b.2
      BadRequest.Serialize p.1 p.2 : Except Panic edpb.BadRequest)
      = (serializeLoop (first ++ more) .nil).map fun fvpbs => ⟨fvpbs⟩ := by
  obtain ⟨hav, har, _, _⟩ := variadic_spec first h
  obtain ⟨hget, harr⟩ := NewBadRequest_get (variadic first h).1 (variadic first h).2
  have hrv := read_congr (variadic first h).2
    (NewBadRequest (variadic first h).1 (variadic first h).2).2 (variadic first h).1 harr
  obtain ⟨_, hbr, hbo, extra, hbe⟩ :=
    variadic_spec more (NewBadRequest (variadic first h).1 (variadic first h).2).2
  obtain ⟨hv3, hr3⟩ := valid_read_of_arrays_append _ _ extra hbe _ (hrv.2 hav)
  rw [← hbo] at hget
  obtain ⟨h2, obj2, hrun, hobj2, hread2, _, _⟩ :=
    WithFieldViolations_spec grow _ (variadic more
      (NewBadRequest (variadic first h).1 (variadic first h).2).2).1 _ _ hget hv3
  dsimp only
  rw [hrun]
  show BadRequest.Serialize _ h2 = _
  rw [Serialize_of_get _ _ _ hobj2, hread2]
  rw [hr3, hrv.1, har, hbr]

/-- The expression `NewBadRequest(all...).Serialize()`, the call listing its
arguments, runs the loop of `Serialize` over the arguments. -/
theorem direct_variadic (all : List FieldViolationPtr) (h : Heap) :
    BadRequest.Serialize (NewBadRequest (variadic all h).1 (variadic all h).2).1
        (NewBadRequest (variadic all h).1 (variadic all h).2).2
      = (serializeLoop all .nil).map fun fvpbs => ⟨fvpbs⟩ := by
  obtain ⟨_, har, _, _⟩ := variadic_spec all h
  obtain ⟨hget, harr⟩ := NewBadRequest_get (variadic all h).1 (variadic all h).2
  rw [Serialize_of_get _ _ _ hget]
  rw [(read_congr _ _ _ harr).1, har]

/-- The expression `NewBadRequest(xs...).WithFieldViolations(ys...).Serialize()`
on slices `xs` and `ys` runs the loop of `Serialize` over the elements of `xs`
followed by those of `ys`. -/
theorem chain_slices (grow : Nat → Nat → Nat) (h : Heap) (xs ys : SliceHeader)
    (hx : xs.Valid h) :
    (do
      let p ← BadRequest.WithFieldViolations grow (NewBadRequest xs h).1 ys (NewBadRequest xs h).2
      BadRequest.Serialize p.1 p.2 : Except Panic edpb.BadRequest)
      = (serializeLoop (h.read xs ++ h.read ys) .nil).map fun fvpbs => ⟨fvpbs⟩ := by
  obtain ⟨hget, harr⟩ := NewBadRequest_get xs h
  have hcx := read_congr h (NewBadRequest xs h).2 xs harr
  have hcy := read_congr h (NewBadRequest xs h).2 ys harr
  obtain ⟨h2, obj2, hrun, hobj2, hread2, _, _⟩ :=
    WithFieldViolations_spec grow _ ys _ _ hget (hcx.2 hx)
  rw [hrun]
  show BadRequest.Serialize _ h2 = _
  rw [Serialize_of_get _ _ _ hobj2, hread2]
  rw [hcx.1, hcy.1]

/-- A valid slice stays valid when no array is dropped or shortened. -/
theorem valid_of_lengths (h h2 : Heap) (hlen : h.arrays.length ≤ h2.arrays.length)
    (hsame : ∀ a, a < h.arrays.length →
      (h.arrays.getD a []).length ≤ (h2.arrays.getD a []).length)
    (t : SliceHeader) (ht : t.Valid h) : t.Valid h2 := by
  unfold SliceHeader.Valid at ht ⊢
  cases hs : t.array with
  | none =>
    rw [hs] at ht
    exact ht
  | some a =>
    rw [hs] at ht
    obtain ⟨hlc, hlt, hcap⟩ := ht
    have := hsame a hlt
    exact ⟨hlc, by omega, by omega⟩

/-- The builtin `append` keeps every valid slice valid. -/
theorem appendSlice_keeps_valid (grow : Nat → Nat → Nat) (s : SliceHeader)
    (elems : List FieldViolationPtr) (h : Heap) (hv : s.Valid h)
    (t : SliceHeader) (ht : t.Valid h) : t.Valid (appendSlice grow s elems h).2 := by
  unfold appendSlice
  by_cases hfit : s.len + elems.length ≤ s.cap
  · rw [if_pos hfit]
    cases hs : s.array with
    | none => exact ht
    | some a =>
      have hv2 := hv
      unfold SliceHeader.Valid at hv2
      rw [hs] at hv2
      obtain ⟨_, ha, hcap⟩ := hv2
      apply valid_of_lengths h _ (by simp) _ t ht
      intro b hb
      by_cases hab : a = b
      · subst hab
        have hget : (h.arrays.set a (writeAt (h.arrays.getD a []) (s.off + s.len) elems)).getD
            a [] = writeAt (h.arrays.getD a []) (s.off + s.len) elems := by
          simp [List.getD_eq_getElem?_getD, ha]
        dsimp only
        rw [hget, length_writeAt _ _ _ (by omega)]
      · have hget : (h.arrays.set a (writeAt (h.arrays.getD a []) (s.off + s.len) elems)).getD
            b [] = h.arrays.getD b [] := by
          simp [List.getD_eq_getElem?_getD, List.getElem?_set_ne hab]
        dsimp only
        rw [hget]
  · rw [if_neg hfit]
    exact (valid_read_of_arrays_append h _ _ rfl t ht).1

/-- `NewBadRequest` on a valid slice keeps the heap well formed. -/
theorem NewBadRequest_WF (fvs : SliceHeader) (h : Heap) (hw : h.WF) (hv : fvs.Valid h) :
    (NewBadRequest fvs h).2.WF := by
  intro obj hobj
  have hmem : obj ∈ h.objs ∨ obj = { fvs := fvs } := by
    simpa [NewBadRequest] using hobj
  rcases hmem with hmem | hmem
  · exact (read_congr h _ obj.fvs rfl).2 (hw obj hmem)
  · rw [hmem]
    exact (read_congr h _ fvs rfl).2 hv

/-- A call that lists its arguments keeps the heap well formed. -/
theorem variadic_WF (args : List FieldViolationPtr) (h : Heap) (hw : h.WF) :
    (variadic args h).2.WF := by
  obtain ⟨_, _, hobjs, extra, hextra⟩ := variadic_spec args h
  intro obj hobj
  rw [hobjs] at hobj
  exact (valid_read_of_arrays_append h _ extra hextra obj.fvs (hw obj hobj)).1

/-- `WithFieldViolations` keeps the heap well formed. -/
theorem WithFieldViolations_WF (grow : Nat → Nat → Nat) (r : Ptr) (vs : SliceHeader)
    (h h2 : Heap) (hw : h.WF)
    (hrun : BadRequest.WithFieldViolations grow r vs h = .ok (r, h2)) : h2.WF := by
  unfold BadRequest.WithFieldViolations at hrun
  cases hr : h.objs[r]? with
  | none =>
    rw [hr] at hrun
    exact Except.noConfusion hrun
  | some obj =>
    rw [hr] at hrun
    have hv : obj.fvs.Valid h := hw obj (List.getElem?_mem hr)
    obtain ⟨_, hvalid, hobjs⟩ := appendSlice_spec grow obj.fvs (h.read vs) h hv
    have hh2 := (Prod.mk.inj (Except.ok.inj hrun)).2
    rw [← hh2]
    intro o ho
    have hmem : o ∈ (appendSlice grow obj.fvs (h.read vs) h).2.objs.set r
        { fvs := (appendSlice grow obj.fvs (h.read vs) h).1 } := ho
    rcases List.mem_or_eq_of_mem_set hmem with hm | hm
    · rw [hobjs] at hm
      exact (read_congr _ _ o.fvs rfl).2
        (appendSlice_keeps_valid grow obj.fvs (h.read vs) h hv o.fvs (hw o hm))
    · rw [hm]
      exact (read_congr _ _ _ rfl).2 hvalid

/-- Two bad requests built from one slice with spare capacity share its backing
array: the element appended through the second overwrites the element appended
through the first, which then reads back the other's violation. -/
theorem shared_backing_array_overwritten :
    (do
      let r1 := NewBadRequest ⟨some 0, 0, 1, 4⟩ ⟨[[some ⟨"a", "x"⟩, none, none, none]], []⟩
      let r2 := NewBadRequest ⟨some 0, 0, 1, 4⟩ r1.2
      let b := variadic [some ⟨"b", "y"⟩] r2.2
      let p1 ← BadRequest.WithFieldViolations (fun _ n => n) r1.1 b.1 b.2
      let c := variadic [some ⟨"c", "z"⟩] p1.2
      let p2 ← BadRequest.WithFieldViolations (fun _ n => n) r2.1 c.1 c.2
      BadRequest.Serialize r1.1 p2.2 : Except Panic edpb.BadRequest)
      = .ok ⟨.mk [⟨"a", "x"⟩, ⟨"c", "z"⟩]⟩ := by
  decide

/-- The loop of `DebugInfo.Serialize` appends the renderings in order. -/
theorem debug_loop_toList (l : List Frame) (s0 : Slice String) :
    (l.foldl (fun stackEntries e => stackEntries.append1 e.sprintfPlusV) s0).toList
      = s0.toList ++ l.map Frame.sprintfPlusV := by
  induction l generalizing s0 with
  | nil => simp
  | cons e l ih =>
    rw [List.foldl_cons, ih, List.map_cons]
    cases s0 <;> simp [Slice.append1, Slice.toList]

/-- The rendering of a frame contains a colon, so it is never empty. -/
theorem sprintfPlusV_ne_empty (e : Frame) : e.sprintfPlusV ≠ "" := by
  intro h
  have hd := congrArg String.data h
  simp [Frame.sprintfPlusV] at hd

/-- The eight rules whose formatter reads `params[0]` panic on the empty list. -/
theorem NewFieldViolationWithRule_nil_error (field rule : String)
    (h : rule ∈ ["max", "min", "gt", "gte", "eq", "lt", "lte", "oneof"]) :
    NewFieldViolationWithRule field rule [] = .error (.indexOutOfRange 0 0) := by
  simp only [List.mem_cons, List.mem_singleton, List.not_mem_nil, or_false] at h
  rcases h with h | h | h | h | h | h | h | h <;> subst h <;> rfl

/-- The run of rule "max" with a first parameter `c`, formats not yet expanded. -/
theorem NewFieldViolationWithRule_max_run (field c : String) (rest : List String) :
    NewFieldViolationWithRule field "max" (c :: rest)
      = .ok { field := field, description :=
          Sprintf "%v is too long (maximum is %v character)" [.str field, .str c] } := by
  have hrun : NewFieldViolationWithRule field "max" (c :: rest) =
      (if c = "1" then
        .ok (Sprintf "%v is too long (maximum is %v character)" [.str field, .str c])
      else
        .ok (Sprintf "%v is too long (maximum is %v character)" [.str field, .str c])
        : Except Panic String) >>= fun d => pure { field := field, description := d } := rfl
  rw [hrun, ite_self]
  rfl

/-- The run of rule "min" with a first parameter `c`, formats not yet expanded. -/
theorem NewFieldViolationWithRule_min_run (field c : String) (rest : List String) :
    NewFieldViolationWithRule field "min" (c :: rest)
      = .ok { field := field, description :=
          if c = "1" then
            Sprintf "%v is too short (minimum is %v characters" [.str field, .str c]
          else
            Sprintf "%v is too short (minimum is %v characters)" [.str field, .str c] } := by
  have hrun : NewFieldViolationWithRule field "min" (c :: rest) =
      (if c = "1" then
        .ok (Sprintf "%v is too short (minimum is %v characters" [.str field, .str c])
      else
        .ok (Sprintf "%v is too short (minimum is %v characters)" [.str field, .str c])
        : Except Panic String) >>= fun d => pure { field := field, description := d } := rfl
  rw [hrun]
  by_cases hc : c = "1"
  · rw [if_pos hc, if_pos hc]; rfl
  · rw [if_neg hc, if_neg hc]; rfl

/-- With a first parameter every rule returns a violation for the field whose
description is the field, a space and a non-empty text. -/
theorem NewFieldViolationWithRule_cons_shape (field rule c : String) (rest : List String) :
    ∃ suffix : List Char, suffix ≠ [] ∧
      NewFieldViolationWithRule field rule (c :: rest)
        = .ok { field := field, description := ⟨field.data ++ ' ' :: suffix⟩ } := by
  by_cases hk : rule ∈ ["required", "max", "min", "numeric", "gt", "gte", "eq", "lt", "lte",
      "oneof", "invalid"]
  · simp only [List.mem_cons, List.mem_singleton, List.not_mem_nil, or_false] at hk
    rcases hk with hk | hk | hk | hk | hk | hk | hk | hk | hk | hk | hk <;> subst hk
    · exact ⟨_, List.cons_ne_nil _ _, rfl⟩
    · exact ⟨_, List.cons_ne_nil _ _, (NewFieldViolationWithRule_max_run field c rest).trans rfl⟩
    · have hrun := NewFieldViolationWithRule_min_run field c rest
      by_cases hc : c = "1"
      · rw [if_pos hc] at hrun
        exact ⟨_, List.cons_ne_nil _ _, hrun.trans rfl⟩
      · rw [if_neg hc] at hrun
        exact ⟨_, List.cons_ne_nil _ _, hrun.trans rfl⟩
    · exact ⟨_, List.cons_ne_nil _ _, rfl⟩
    · exact ⟨_, List.cons_ne_nil _ _, rfl⟩
    · exact ⟨_, List.cons_ne_nil _ _, rfl⟩
    · exact ⟨_, List.cons_ne_nil _ _, rfl⟩
    · exact ⟨_, List.cons_ne_nil _ _, rfl⟩
    · exact ⟨_, List.cons_ne_nil _ _, rfl⟩
    · exact ⟨_, List.cons_ne_nil _ _, rfl⟩
    · exact ⟨_, List.cons_ne_nil _ _, rfl⟩
  · exact ⟨_, List.cons_ne_nil _ _, (NewFieldViolationWithRule_unknown field rule _ hk).trans rfl⟩

/-- The three rules without a parameter and every unknown rule return, for all
params lists, the violation they return for the empty list, whose description
is the field, a space and a non-empty text. -/
theorem NewFieldViolationWithRule_no_index_shape (field rule : String) (params : List String)
    (h : rule ∉ ["max", "min", "gt", "gte", "eq", "lt", "lte", "oneof"]) :
    NewFieldViolationWithRule field rule params = NewFieldViolationWithRule field rule [] ∧
      ∃ suffix : List Char, suffix ≠ [] ∧
        NewFieldViolationWithRule field rule params
          = .ok { field := field, description := ⟨field.data ++ ' ' :: suffix⟩ } := by
  by_cases hk : rule ∈ ["required", "max", "min", "numeric", "gt", "gte", "eq", "lt", "lte",
      "oneof", "invalid"]
  · simp only [List.mem_cons, List.mem_singleton, List.not_mem_nil, or_false, not_or] at hk h
    rcases hk with hk | hk | hk | hk | hk | hk | hk | hk | hk | hk | hk
    · subst hk; exact ⟨rfl, _, List.cons_ne_nil _ _, rfl⟩
    · exact absurd hk h.1
    · exact absurd hk h.2.1
    · subst hk; exact ⟨rfl, _, List.cons_ne_nil _ _, rfl⟩
    · exact absurd hk h.2.2.1
    · exact absurd hk h.2.2.2.1
    · exact absurd hk h.2.2.2.2.1
    · exact absurd hk h.2.2.2.2.2.1
    · exact absurd hk h.2.2.2.2.2.2.1
    · exact absurd hk h.2.2.2.2.2.2.2
    · subst hk; exact ⟨rfl, _, List.cons_ne_nil _ _, rfl⟩
  · refine ⟨?_, _, List.cons_ne_nil _ _,
      (NewFieldViolationWithRule_unknown field rule _ hk).trans rfl⟩
    rw [NewFieldViolationWithRule_unknown field rule params hk,
      NewFieldViolationWithRule_unknown field rule [] hk]

/-- Parameters after the first are never read. -/
theorem NewFieldViolationWithRule_head (field rule c : String) (rest : List String) :
    NewFieldViolationWithRule field rule (c :: rest)
      = NewFieldViolationWithRule field rule [c] := by
  by_cases hk : rule ∈ ["required", "max", "min", "numeric", "gt", "gte", "eq", "lt", "lte",
      "oneof", "invalid"]
  · simp only [List.mem_cons, List.mem_singleton, List.not_mem_nil, or_false] at hk
    rcases hk with hk | hk | hk | hk | hk | hk | hk | hk | hk | hk | hk <;> subst hk <;> rfl
  · rw [NewFieldViolationWithRule_unknown field rule _ hk,
      NewFieldViolationWithRule_unknown field rule _ hk]

/-- Joining the pieces of `Split s " "` with single spaces gives `s` back. -/
theorem intercalate_Split_space (s : String) : " ".intercalate (Split s " ") = s := by
  apply String.ext
  rw [← renderElems_eq_intercalate, Split_space, renderElems_splitAux_space]

/-! ## Claims -/

/-- C1: for every field, every params list and every rule name that is not one
of the eleven registry keys, `NewFieldViolationWithRule` succeeds and its
description is the field followed by " is invalid", the same violation the rule
"invalid" produces for that field. -/
theorem unknown_rule_falls_back (field rule : String) (params : List String)
    (h : rule ∉ ["required", "max", "min", "numeric", "gt", "gte", "eq", "lt", "lte",
      "oneof", "invalid"]) :
    NewFieldViolationWithRule field rule params
        = .ok { field := field, description := field ++ " is invalid" } ∧
      NewFieldViolationWithRule field rule params
        = NewFieldViolationWithRule field "invalid" params := by
  have h1 : NewFieldViolationWithRule field rule params
      = NewFieldViolationWithRule field "invalid" params := by
    simp only [NewFieldViolationWithRule, ruleToFormatter_eq_none rule h]
    rfl
  exact ⟨h1.trans rfl, h1⟩

/-- Witness for C1 at the unknown rule "Required" (the comparison is case-sensitive). -/
theorem unknown_rule_falls_back_witness :
    NewFieldViolationWithRule "email" "Required" []
        = .ok { field := "email", description := "email" ++ " is invalid" } ∧
      NewFieldViolationWithRule "email" "Required" []
        = NewFieldViolationWithRule "email" "invalid" [] :=
  unknown_rule_falls_back "email" "Required" [] (by decide)

/-- C2 as stated fails: rule "max" with the empty params list panics on
`params[0]`, and so no violation is returned. -/
theorem max_without_params_panics :
    NewFieldViolationWithRule "name" "max" [] = .error (.indexOutOfRange 0 0) ∧
      ¬ ∃ v, NewFieldViolationWithRule "name" "max" [] = .ok v := by
  have hrun : NewFieldViolationWithRule "name" "max" [] = .error (.indexOutOfRange 0 0) := by
    decide
  refine ⟨hrun, ?_⟩
  rintro ⟨v, hv⟩
  rw [hrun] at hv
  exact Except.noConfusion hv

/-- C2, amended: for every field, `NewFieldViolationWithRule` returns a
violation whenever the params list is non-empty or the rule is not one of max,
min, gt, gte, eq, lt, lte, oneof. -/
theorem returns_violation_when_param_present (field rule : String) (params : List String)
    (h : params ≠ [] ∨
      rule ∉ ["max", "min", "gt", "gte", "eq", "lt", "lte", "oneof"]) :
    ∃ v, NewFieldViolationWithRule field rule params = .ok v := by
  by_cases hk : rule ∈ ["required", "max", "min", "numeric", "gt", "gte", "eq", "lt", "lte",
      "oneof", "invalid"]
  · simp only [List.mem_cons, List.mem_singleton, List.not_mem_nil, or_false] at hk
    cases params with
    | nil =>
      have hr : rule ∉ ["max", "min", "gt", "gte", "eq", "lt", "lte", "oneof"] := by
        rcases h with h | h
        · exact absurd rfl h
        · exact h
      simp only [List.mem_cons, List.mem_singleton, List.not_mem_nil, or_false, not_or] at hr
      rcases hk with hk | hk | hk | hk | hk | hk | hk | hk | hk | hk | hk
      · subst hk; exact ⟨_, rfl⟩
      · exact absurd hk hr.1
      · exact absurd hk hr.2.1
      · subst hk; exact ⟨_, rfl⟩
      · exact absurd hk hr.2.2.1
      · exact absurd hk hr.2.2.2.1
      · exact absurd hk hr.2.2.2.2.1
      · exact absurd hk hr.2.2.2.2.2.1
      · exact absurd hk hr.2.2.2.2.2.2.1
      · exact absurd hk hr.2.2.2.2.2.2.2
      · subst hk; exact ⟨_, rfl⟩
    | cons c rest =>
      rcases hk with hk | hk | hk | hk | hk | hk | hk | hk | hk | hk | hk <;> subst hk
      · exact ⟨_, rfl⟩
      · exact ⟨_, NewFieldViolationWithRule_max field c rest⟩
      · exact ⟨_, NewFieldViolationWithRule_min field c rest⟩
      all_goals exact ⟨_, rfl⟩
  · exact ⟨_, (NewFieldViolationWithRule_unknown field rule params hk)⟩

/-- Witness for C2, amended: rule "max" with one parameter. -/
theorem returns_violation_when_param_present_witness :
    ∃ v, NewFieldViolationWithRule "name" "max" ["10"] = .ok v :=
  returns_violation_when_param_present "name" "max" ["10"] (Or.inl (by decide))

/-- C3: for every field and every params list, rule "required" gives the field
followed by " can't be blank", rule "numeric" the field followed by
" is not a number" and rule "invalid" the field followed by " is invalid"; field
"email" with rule "required" gives "email can't be blank". -/
theorem parameterless_rule_descriptions (field : String) (params : List String) :
    NewFieldViolationWithRule field "required" params
        = .ok { field := field, description := field ++ " can't be blank" } ∧
      NewFieldViolationWithRule field "numeric" params
        = .ok { field := field, description := field ++ " is not a number" } ∧
      NewFieldViolationWithRule field "invalid" params
        = .ok { field := field, description := field ++ " is invalid" } ∧
      NewFieldViolationWithRule "email" "required" []
        = .ok { field := "email", description := "email can't be blank" } :=
  ⟨rfl, rfl, rfl, rfl⟩

/-- C4: for every field and every params list with first element `t`, the
rules gt, gte, eq, lt and lte give the field followed by " must be ", the
comparison phrase of the rule, a space and `t`; field "age" with rule "gt" and
params ["18"] gives "age must be greater than 18". -/
theorem threshold_rule_descriptions (field t : String) (rest : List String) :
    NewFieldViolationWithRule field "gt" (t :: rest)
        = .ok { field := field,
                description := field ++ " must be " ++ "greater than" ++ " " ++ t } ∧
      NewFieldViolationWithRule field "gte" (t :: rest)
        = .ok { field := field,
                description := field ++ " must be " ++ "greater than or equal to" ++ " " ++ t } ∧
      NewFieldViolationWithRule field "eq" (t :: rest)
        = .ok { field := field,
                description := field ++ " must be " ++ "equal to" ++ " " ++ t } ∧
      NewFieldViolationWithRule field "lt" (t :: rest)
        = .ok { field := field,
                description := field ++ " must be " ++ "less than" ++ " " ++ t } ∧
      NewFieldViolationWithRule field "lte" (t :: rest)
        = .ok { field := field,
                description := field ++ " must be " ++ "less than or equal to" ++ " " ++ t } ∧
      NewFieldViolationWithRule "age" "gt" ["18"]
        = .ok { field := "age", description := "age must be greater than 18" } := by
  refine ⟨?_, ?_, ?_, ?_, ?_, by decide⟩ <;>
  · show Except.ok _ = _
    congr 2
    apply String.ext
    simp [Sprintf, sprintfAux, Value.render]

/-- C5: for rule "max", every field and every params list with first element
`c`, whether `c` is "1" or not, the description is the field followed by
" is too long (maximum is ", `c` and " character)"; the word "characters" occurs
in it only if it occurs in the field or in `c`. -/
theorem max_description (field c : String) (rest : List String) :
    NewFieldViolationWithRule field "max" (c :: rest)
        = .ok { field := field,
                description := field ++ " is too long (maximum is " ++ c ++ " character)" } ∧
      NewFieldViolationWithRule field "max" ("1" :: rest)
        = .ok { field := field,
                description := field ++ " is too long (maximum is " ++ "1" ++ " character)" } ∧
      ∀ v, NewFieldViolationWithRule field "max" (c :: rest) = .ok v →
        "characters".data <:+: v.description.data →
          "characters".data <:+: field.data ∨ "characters".data <:+: c.data := by
  refine ⟨NewFieldViolationWithRule_max field c rest,
    NewFieldViolationWithRule_max field "1" rest, ?_⟩
  intro v hv hinf
  rw [NewFieldViolationWithRule_max field c rest] at hv
  have hd : v.description.data
      = field.data ++ ' ' :: ("is too long (maximum is".data ++
          ' ' :: (c.data ++ ' ' :: "character)".data)) := by
    rw [← Except.ok.inj hv]
    simp
  rw [hd] at hinf
  have hw : ' ' ∉ "characters".data := by decide
  rcases infix_of_infix_append_space _ _ _ hw hinf with h1 | h1
  · exact Or.inl h1
  · rcases infix_of_infix_append_space _ _ _ hw h1 with h2 | h2
    · exact absurd h2 (by decide)
    · rcases infix_of_infix_append_space _ _ _ hw h2 with h3 | h3
      · exact Or.inr h3
      · exact absurd h3 (by decide)

/-- C6: for rule "min", every field and every params list with first element
`c`: when `c` is "1" the description is the field followed by
" is too short (minimum is 1 characters", without a closing parenthesis, and
otherwise the field followed by " is too short (minimum is ", `c` and
" characters)". -/
theorem min_description (field c : String) (rest : List String) :
    NewFieldViolationWithRule field "min" (c :: rest)
        = .ok { field := field,
                description :=
                  if c = "1" then field ++ " is too short (minimum is 1 characters"
                  else field ++ " is too short (minimum is " ++ c ++ " characters)" } ∧
      NewFieldViolationWithRule "name" "min" ["1"]
        = .ok { field := "name", description := "name is too short (minimum is 1 characters" } ∧
      NewFieldViolationWithRule "name" "min" ["2"]
        = .ok { field := "name",
                description := "name is too short (minimum is 2 characters)" } :=
  ⟨NewFieldViolationWithRule_min field c rest, by decide, by decide⟩

/-- C7: for rule "oneof", every field and every params list with first element
`s`, the description is the field, " is not included in the list [", the pieces
of `s` joined by single spaces, and "]", where the pieces are those of splitting
`s` at every space: none contains a space, there is one more piece than `s` has
spaces, and joined by single spaces they give `s`. Field "role" with
"admin user guest" gives "role is not included in the list [admin user guest]". -/
theorem oneof_description (field s : String) (rest : List String) :
    NewFieldViolationWithRule field "oneof" (s :: rest)
        = .ok { field := field,
                description := field ++ " is not included in the list [" ++
                  " ".intercalate (Split s " ") ++ "]" } ∧
      (∀ e ∈ Split s " ", ' ' ∉ e.data) ∧
      (Split s " ").length = s.data.count ' ' + 1 ∧
      " ".intercalate (Split s " ") = s ∧
      Split "admin user guest" " " = ["admin", "user", "guest"] ∧
      NewFieldViolationWithRule "role" "oneof" ["admin user guest"]
        = .ok { field := "role",
                description := "role is not included in the list [admin user guest]" } := by
  refine ⟨NewFieldViolationWithRule_oneof field s rest, ?_, ?_, ?_, by decide, by decide⟩
  · intro e he
    rw [Split_space, List.mem_map] at he
    obtain ⟨p, hp, rfl⟩ := he
    exact splitAux_space_no_space s.data p hp
  · rw [Split_space, List.length_map, splitAux_space_length]
  · apply String.ext
    rw [← renderElems_eq_intercalate, Split_space, renderElems_splitAux_space]

/-- C8 as stated fails: when one of the violations handed in is the nil pointer,
`Serialize` panics, so the message does not have three entries. -/
theorem append_then_serialize_nil_panics :
    (do
      let a := variadic [some ⟨"a", "x"⟩, none] ⟨[], []⟩
      let r := NewBadRequest a.1 a.2
      let b := variadic [some ⟨"c", "z"⟩] r.2
      let p ← BadRequest.WithFieldViolations (fun _ n => n) r.1 b.1 b.2
      BadRequest.Serialize p.1 p.2 : Except Panic edpb.BadRequest)
      = .error .nilDereference := by
  rw [chain_variadic]
  rfl

/-- C8, amended: for all slices `xs` and `ys` of violations, constructing with
`xs`, appending `ys` and serializing gives the same result as constructing with
a slice that holds the elements of `xs` followed by those of `ys` and
serializing; when none of the elements is the nil pointer the result is a
message whose entries are their serializations in order, and when one is, both
panic. In particular, for
non-nil violations, two followed by a third give exactly three entries in that
order, and appending [B, C] to [A] equals constructing with [A, B, C]. -/
theorem append_then_serialize (grow : Nat → Nat → Nat) (h : Heap) (xs ys : SliceHeader)
    (hx : xs.Valid h) (h3 : Heap) (zs : SliceHeader)
    (hz : h3.read zs = h.read xs ++ h.read ys) (A B C : FieldViolation) (h0 : Heap) :
    (do
        let p ← BadRequest.WithFieldViolations grow (NewBadRequest xs h).1 ys
          (NewBadRequest xs h).2
        BadRequest.Serialize p.1 p.2 : Except Panic edpb.BadRequest)
      = BadRequest.Serialize (NewBadRequest zs h3).1 (NewBadRequest zs h3).2 ∧
    ((∀ p ∈ h.read xs ++ h.read ys, p ≠ none) →
      ∃ pb, (do
          let p ← BadRequest.WithFieldViolations grow (NewBadRequest xs h).1 ys
            (NewBadRequest xs h).2
          BadRequest.Serialize p.1 p.2 : Except Panic edpb.BadRequest) = .ok pb ∧
        pb.FieldViolations.toList.map some
          = (h.read xs ++ h.read ys).map (Option.map FieldViolation.Serialize)) ∧
    (none ∈ h.read xs ++ h.read ys →
      (do
          let p ← BadRequest.WithFieldViolations grow (NewBadRequest xs h).1 ys
            (NewBadRequest xs h).2
          BadRequest.Serialize p.1 p.2 : Except Panic edpb.BadRequest)
        = .error .nilDereference) ∧
    (do
        let a := variadic [some A, some B] h0
        let r := NewBadRequest a.1 a.2
        let b := variadic [some C] r.2
        let p ← BadRequest.WithFieldViolations grow r.1 b.1 b.2
        BadRequest.Serialize p.1 p.2 : Except Panic edpb.BadRequest)
      = .ok ⟨.mk [A.Serialize, B.Serialize, C.Serialize]⟩ ∧
    (do
        let a := variadic [some A] h0
        let r := NewBadRequest a.1 a.2
        let b := variadic [some B, some C] r.2
        let p ← BadRequest.WithFieldViolations grow r.1 b.1 b.2
        BadRequest.Serialize p.1 p.2 : Except Panic edpb.BadRequest)
      = BadRequest.Serialize
          (NewBadRequest (variadic [some A, some B, some C] h0).1
            (variadic [some A, some B, some C] h0).2).1
          (NewBadRequest (variadic [some A, some B, some C] h0).1
            (variadic [some A, some B, some C] h0).2).2 := by
  refine ⟨?_, ?_, ?_, ?_, ?_⟩
  · rw [chain_slices grow h xs ys hx,
      Serialize_of_get _ _ _ (NewBadRequest_get zs h3).1,
      (read_congr h3 _ zs (NewBadRequest_get zs h3).2).1, hz]
  · intro hnn
    obtain ⟨out, hrun, hto, _, _⟩ := serializeLoop_ok _ Slice.nil hnn
    refine ⟨⟨out⟩, ?_, ?_⟩
    · rw [chain_slices grow h xs ys hx, hrun]
      rfl
    · rw [hto]
      rfl
  · intro hnil
    rw [chain_slices grow h xs ys hx, serializeLoop_error _ Slice.nil hnil]
    rfl
  · rw [chain_variadic]
    rfl
  · rw [chain_variadic, direct_variadic]
    rfl

/-- Witness for C8, amended: the first slice has spare capacity in its backing
array and the second slice lies in that same array. -/
theorem append_then_serialize_witness :
    (do
        let p ← BadRequest.WithFieldViolations (fun _ n => n)
          (NewBadRequest ⟨some 0, 0, 1, 2⟩ ⟨[[some ⟨"a", "x"⟩, some ⟨"b", "y"⟩]], []⟩).1
          ⟨some 0, 1, 1, 1⟩
          (NewBadRequest ⟨some 0, 0, 1, 2⟩ ⟨[[some ⟨"a", "x"⟩, some ⟨"b", "y"⟩]], []⟩).2
        BadRequest.Serialize p.1 p.2 : Except Panic edpb.BadRequest)
      = BadRequest.Serialize
          (NewBadRequest ⟨some 0, 0, 2, 2⟩ ⟨[[some ⟨"a", "x"⟩, some ⟨"b", "y"⟩]], []⟩).1
          (NewBadRequest ⟨some 0, 0, 2, 2⟩ ⟨[[some ⟨"a", "x"⟩, some ⟨"b", "y"⟩]], []⟩).2 :=
  (append_then_serialize (fun _ n => n) ⟨[[some ⟨"a", "x"⟩, some ⟨"b", "y"⟩]], []⟩
    ⟨some 0, 0, 1, 2⟩ ⟨some 0, 1, 1, 1⟩ (by decide)
    ⟨[[some ⟨"a", "x"⟩, some ⟨"b", "y"⟩]], []⟩ ⟨some 0, 0, 2, 2⟩ (by decide)
    ⟨"a", "x"⟩ ⟨"b", "y"⟩ ⟨"c", "z"⟩ ⟨[], []⟩).1

/-- C9 as stated fails: a bad request built from a violation and the nil pointer
makes `Serialize` panic, so no message is returned. -/
theorem serialize_nil_entry_panics :
    BadRequest.Serialize
        (NewBadRequest (variadic [some ⟨"a", "x"⟩, none] ⟨[], []⟩).1
          (variadic [some ⟨"a", "x"⟩, none] ⟨[], []⟩).2).1
        (NewBadRequest (variadic [some ⟨"a", "x"⟩, none] ⟨[], []⟩).1
          (variadic [some ⟨"a", "x"⟩, none] ⟨[], []⟩).2).2
      = .error .nilDereference := by
  rw [direct_variadic]
  rfl

/-- C9, amended: for every allocated bad request whose sequence holds no nil
pointer, `Serialize` returns a message whose entries are as many as the
violations, the entry at each index being the serialization of the violation at
that index (same field, same description). -/
theorem serialize_entries (r : Ptr) (h : Heap) (obj : BadRequest)
    (hr : h.objs[r]? = some obj) (hnn : ∀ p ∈ h.read obj.fvs, p ≠ none) :
    ∃ pb, BadRequest.Serialize r h = .ok pb ∧
      pb.FieldViolations.toList.length = (h.read obj.fvs).length ∧
      (∀ (i : Nat) (v : FieldViolation), (h.read obj.fvs)[i]? = some (some v) →
        pb.FieldViolations.toList[i]?
          = some (edpb.BadRequest_FieldViolation.mk v.field v.description)) ∧
      (∀ i : Nat, (h.read obj.fvs)[i]? = none → pb.FieldViolations.toList[i]? = none) ∧
      pb.FieldViolations.toList.map some
        = (h.read obj.fvs).map (Option.map FieldViolation.Serialize) := by
  obtain ⟨out, hrun, hto, _, _⟩ := serializeLoop_ok (h.read obj.fvs) Slice.nil hnn
  have hmap : out.toList.map some
      = (h.read obj.fvs).map (Option.map FieldViolation.Serialize) := by
    rw [hto]
    rfl
  have hlen : out.toList.length = (h.read obj.fvs).length := by
    have := congrArg List.length hmap
    simpa using this
  refine ⟨⟨out⟩, ?_, hlen, ?_, ?_, hmap⟩
  · rw [Serialize_of_get r h obj hr, hrun]
    rfl
  · intro i v hv
    have hi := congrArg (fun l => l[i]?) hmap
    simp only [List.getElem?_map, hv, Option.map_some'] at hi
    cases ho : out.toList[i]? with
    | none => rw [ho] at hi; exact Option.noConfusion hi
    | some x =>
      rw [ho] at hi
      simp only [Option.map_some', Option.some.injEq] at hi
      rw [hi]
      rfl
  · intro i hv
    have hge : (h.read obj.fvs).length ≤ i := List.getElem?_eq_none_iff.mp hv
    exact List.getElem?_eq_none (by show out.toList.length ≤ i; omega)

/-- Witness for C9, amended: a bad request with two violations. -/
theorem serialize_entries_witness :
    ∃ pb, BadRequest.Serialize 0
        ⟨[[some ⟨"a", "x"⟩, some ⟨"b", "y"⟩]], [⟨⟨some 0, 0, 2, 2⟩⟩]⟩ = .ok pb ∧
      pb.FieldViolations.toList.length = 2 ∧
      pb.FieldViolations.toList.map some = [some ⟨"a", "x"⟩, some ⟨"b", "y"⟩] := by
  obtain ⟨pb, h1, h2, _, _, h5⟩ :=
    serialize_entries 0 ⟨[[some ⟨"a", "x"⟩, some ⟨"b", "y"⟩]], [⟨⟨some 0, 0, 2, 2⟩⟩]⟩
      ⟨⟨some 0, 0, 2, 2⟩⟩ rfl (by decide)
  exact ⟨pb, h1, h2, h5⟩

/-- C10: for every allocated bad request with a valid slice that holds `old`,
and every slice `vs` of violations, `WithFieldViolations` returns the
receiver's own address and the object at that address then holds exactly `old`
followed by the elements of `vs`; no object is allocated and a well-formed heap
stays well formed; so `old` is a prefix of the new sequence, which is at least
as long. -/
theorem with_field_violations_in_place (grow : Nat → Nat → Nat) (r : Ptr) (h : Heap)
    (obj : BadRequest) (vs : SliceHeader)
    (hr : h.objs[r]? = some obj) (hv : obj.fvs.Valid h) :
    ∃ h2 obj2, BadRequest.WithFieldViolations grow r vs h = .ok (r, h2) ∧
      h2.objs[r]? = some obj2 ∧
      h2.read obj2.fvs = h.read obj.fvs ++ h.read vs ∧
      h2.objs.length = h.objs.length ∧
      h.read obj.fvs <+: h2.read obj2.fvs ∧
      (h.read obj.fvs).length ≤ (h2.read obj2.fvs).length ∧
      obj2.fvs.Valid h2 ∧
      (h.WF → h2.WF) := by
  obtain ⟨h2, obj2, hrun, hobj2, hread2, hvalid2, hlen2⟩ :=
    WithFieldViolations_spec grow r vs h obj hr hv
  refine ⟨h2, obj2, hrun, hobj2, hread2, hlen2, ?_, ?_, hvalid2,
    fun hw => WithFieldViolations_WF grow r vs h h2 hw hrun⟩
  · rw [hread2]
    exact List.prefix_append _ _
  · rw [hread2, List.length_append]
    exact Nat.le_add_right _ _

/-- Witness for C10: the receiver's slice has spare capacity, so the element is
written into its backing array. -/
theorem with_field_violations_in_place_witness :
    ∃ h2 obj2, BadRequest.WithFieldViolations (fun _ n => n) 0 ⟨some 1, 0, 1, 1⟩
        ⟨[[some ⟨"a", "x"⟩, none], [some ⟨"b", "y"⟩]], [⟨⟨some 0, 0, 1, 2⟩⟩]⟩ = .ok (0, h2) ∧
      h2.objs[0]? = some obj2 ∧
      h2.read obj2.fvs = [some ⟨"a", "x"⟩, some ⟨"b", "y"⟩] := by
  obtain ⟨h2, obj2, h3, h4, h5, _⟩ :=
    with_field_violations_in_place (fun _ n => n) 0
      ⟨[[some ⟨"a", "x"⟩, none], [some ⟨"b", "y"⟩]], [⟨⟨some 0, 0, 1, 2⟩⟩]⟩
      ⟨⟨some 0, 0, 1, 2⟩⟩ ⟨some 1, 0, 1, 1⟩ rfl (by decide)
  exact ⟨h2, obj2, h3, h4, h5⟩

/-- C11: for every field and description, `NewFieldViolation` followed by
`Serialize` gives that field and that description unchanged, also when they are
empty, name a rule or contain a format verb: no formatter is applied. -/
theorem literal_violation_verbatim (f d : String) :
    (NewFieldViolation f d).Serialize = { Field := f, Description := d } ∧
      (NewFieldViolation "" "").Serialize = { Field := "", Description := "" } ∧
      (NewFieldViolation "email" "required").Serialize
        = { Field := "email", Description := "required" } ∧
      (NewFieldViolation "%v" "%v is invalid").Serialize
        = { Field := "%v", Description := "%v is invalid" } ∧
      Except.ok (NewFieldViolation "email" "required")
        ≠ NewFieldViolationWithRule "email" "required" [] := by
  refine ⟨rfl, rfl, rfl, rfl, by decide⟩

/-- C12 as stated fails: for a bad request without violations the loop of
`Serialize` never appends, so the sequence returned is the nil slice and not an
allocated empty slice. -/
theorem serialize_without_violations_is_nil :
    BadRequest.Serialize
        (NewBadRequest (variadic [] ⟨[], []⟩).1 (variadic [] ⟨[], []⟩).2).1
        (NewBadRequest (variadic [] ⟨[], []⟩).1 (variadic [] ⟨[], []⟩).2).2
        = .ok { FieldViolations := .nil } ∧
      BadRequest.Serialize
        (NewBadRequest (variadic [] ⟨[], []⟩).1 (variadic [] ⟨[], []⟩).2).1
        (NewBadRequest (variadic [] ⟨[], []⟩).1 (variadic [] ⟨[], []⟩).2).2
        ≠ .ok { FieldViolations := .mk [] } := by
  decide

/-- C12, amended: for a bad request built with no violations, also after
`WithFieldViolations` with no arguments, `Serialize` returns a message whose
sequence of field violations has zero entries; it is the nil slice. The same
holds for every bad request whose sequence is empty. -/
theorem serialize_without_violations (grow : Nat → Nat → Nat) (h : Heap) :
    BadRequest.Serialize
        (NewBadRequest (variadic [] h).1 (variadic [] h).2).1
        (NewBadRequest (variadic [] h).1 (variadic [] h).2).2
        = .ok { FieldViolations := .nil } ∧
      (do
          let a := variadic [] h
          let r := NewBadRequest a.1 a.2
          let b := variadic [] r.2
          let p ← BadRequest.WithFieldViolations grow r.1 b.1 b.2
          BadRequest.Serialize p.1 p.2 : Except Panic edpb.BadRequest)
        = .ok { FieldViolations := .nil } ∧
      (∀ (r : Ptr) (obj : BadRequest), h.objs[r]? = some obj → h.read obj.fvs = [] →
        BadRequest.Serialize r h = .ok { FieldViolations := .nil }) ∧
      (Slice.nil : Slice edpb.BadRequest_FieldViolation).toList = [] ∧
      (Slice.nil : Slice edpb.BadRequest_FieldViolation).toList.length = 0 := by
  refine ⟨?_, ?_, ?_, rfl, rfl⟩
  · rw [direct_variadic]
    rfl
  · rw [chain_variadic]
    rfl
  · intro r obj hr hempty
    rw [Serialize_of_get r h obj hr, hempty]
    rfl

/-- C13 as stated fails: the nil error has no stack trace and `NewDebugInfo`
panics on it; and an error without a stack trace whose message is the empty
string gives an empty `Detail`. -/
theorem empty_message_gives_empty_detail :
    NewDebugInfo none = .error .nilDereference ∧
      NewDebugInfo (some { Error := "", StackTrace := none })
        = .ok { st := [], detail := "" } ∧
      (DebugInfo.Serialize { st := [], detail := "" }).Detail = "" := by
  decide

/-- C13, amended: for every non-nil error that has no method `StackTrace`,
`NewDebugInfo` returns a debug info whose serialization has no stack entries and
whose `Detail` is the message of the error, hence non-empty exactly when the
message is. -/
theorem debug_info_without_stack_trace (msg : String) :
    ∃ d, NewDebugInfo (some { Error := msg, StackTrace := none }) = .ok d ∧
      d.Serialize = { StackEntries := .nil, Detail := msg } ∧
      d.Serialize.StackEntries.toList = [] ∧
      d.Serialize.Detail = msg ∧
      (d.Serialize.Detail ≠ "" ↔ msg ≠ "") :=
  ⟨{ st := [], detail := msg }, rfl, rfl, rfl, rfl, Iff.rfl⟩

/-- C14: for every error whose method `StackTrace` returns the frames `frames`,
`NewDebugInfo` returns a debug info whose serialization has as many stack
entries as frames; the entry at each index is the `%+v` rendering of the frame
at that index, which is the function name, a newline, a tab, the file, a colon
and the line in decimal; and no entry is the empty string. -/
theorem debug_info_stack_entries (msg : String) (frames : List Frame) :
    ∃ d, NewDebugInfo (some { Error := msg, StackTrace := some frames }) = .ok d ∧
      d.Serialize.StackEntries.toList.length = frames.length ∧
      (∀ (i : Nat) (e : Frame), frames[i]? = some e →
        d.Serialize.StackEntries.toList[i]?
          = some (e.name ++ "\n\t" ++ e.file ++ ":" ++ toString e.line)) ∧
      (∀ i : Nat, frames[i]? = none → d.Serialize.StackEntries.toList[i]? = none) ∧
      d.Serialize.StackEntries.toList
        = frames.map (fun e => e.name ++ "\n\t" ++ e.file ++ ":" ++ toString e.line) ∧
      (∀ entry ∈ d.Serialize.StackEntries.toList, entry ≠ "") ∧
      (NewDebugInfo (some ⟨"boom",
          some [⟨"main.run", "/src/main.go", 12⟩, ⟨"unknown", "unknown", 0⟩]⟩)).map
          (fun d => d.Serialize.StackEntries)
        = .ok (.mk ["main.run\n\t/src/main.go:12", "unknown\n\tunknown:0"]) := by
  have hl : (DebugInfo.Serialize { st := frames, detail := msg }).StackEntries.toList
      = frames.map Frame.sprintfPlusV := by
    show Slice.toList (List.foldl _ _ _) = _
    rw [debug_loop_toList]
    rfl
  refine ⟨{ st := frames, detail := msg }, rfl, ?_, ?_, ?_, hl, ?_, by decide⟩
  · rw [hl, List.length_map]
  · intro i e he
    rw [hl, List.getElem?_map, he]
    rfl
  · intro i he
    rw [hl, List.getElem?_map, he]
    rfl
  · intro entry hentry
    rw [hl, List.mem_map] at hentry
    obtain ⟨e, _, rfl⟩ := hentry
    exact sprintfPlusV_ne_empty e

/-- C15 as stated fails: on the nil error the call `err.Error()` panics, so
`NewDebugInfo` returns no debug info and there is no `Detail`. -/
theorem nil_error_panics :
    NewDebugInfo none = .error .nilDereference ∧
      ¬ ∃ d, NewDebugInfo none = .ok d := by
  have hrun : NewDebugInfo none = .error .nilDereference := rfl
  refine ⟨hrun, ?_⟩
  rintro ⟨d, hd⟩
  rw [hrun] at hd
  exact Except.noConfusion hd

/-- C15, amended: for every non-nil error, with or without the method
`StackTrace` and whatever frames it returns, `NewDebugInfo` returns a debug info
and the `Detail` of its serialization is the message of the error. -/
theorem debug_info_detail (err : GoError) (msg : String) (st st2 : Option (List Frame)) :
    (∃ d, NewDebugInfo (some err) = .ok d ∧ d.Serialize.Detail = err.Error) ∧
      (NewDebugInfo (some { Error := msg, StackTrace := st })).map
          (fun d => d.Serialize.Detail) = .ok msg ∧
      (NewDebugInfo (some { Error := msg, StackTrace := st })).map
          (fun d => d.Serialize.Detail)
        = (NewDebugInfo (some { Error := msg, StackTrace := st2 })).map
          (fun d => d.Serialize.Detail) := by
  refine ⟨⟨_, rfl, rfl⟩, rfl, rfl⟩

/-- C16: `NewFieldViolationWithRule` fails exactly when the params list is empty
and the rule is one of max, min, gt, gte, eq, lt, lte, oneof, and the failure is
the index-out-of-range panic of `params[0]`; in every other case it returns a
violation. -/
theorem fails_iff_param_missing (field rule : String) (params : List String) :
    ((∃ p, NewFieldViolationWithRule field rule params = .error p) ↔
        (params = [] ∧ rule ∈ ["max", "min", "gt", "gte", "eq", "lt", "lte", "oneof"])) ∧
      ((params = [] ∧ rule ∈ ["max", "min", "gt", "gte", "eq", "lt", "lte", "oneof"]) →
        NewFieldViolationWithRule field rule params = .error (.indexOutOfRange 0 0)) ∧
      (¬ (params = [] ∧ rule ∈ ["max", "min", "gt", "gte", "eq", "lt", "lte", "oneof"]) →
        ∃ v, NewFieldViolationWithRule field rule params = .ok v) := by
  have hfail : (params = [] ∧ rule ∈ ["max", "min", "gt", "gte", "eq", "lt", "lte", "oneof"]) →
      NewFieldViolationWithRule field rule params = .error (.indexOutOfRange 0 0) := by
    rintro ⟨hp, hr⟩
    rw [hp]
    exact NewFieldViolationWithRule_nil_error field rule hr
  have hok : ¬ (params = [] ∧ rule ∈ ["max", "min", "gt", "gte", "eq", "lt", "lte", "oneof"]) →
      ∃ v, NewFieldViolationWithRule field rule params = .ok v := by
    intro hn
    cases params with
    | nil =>
      have hr : rule ∉ ["max", "min", "gt", "gte", "eq", "lt", "lte", "oneof"] :=
        fun hr => hn ⟨rfl, hr⟩
      obtain ⟨_, suffix, _, hv⟩ := NewFieldViolationWithRule_no_index_shape field rule [] hr
      exact ⟨_, hv⟩
    | cons c rest =>
      obtain ⟨suffix, _, hv⟩ := NewFieldViolationWithRule_cons_shape field rule c rest
      exact ⟨_, hv⟩
  refine ⟨⟨?_, fun hc => ⟨_, hfail hc⟩⟩, hfail, hok⟩
  rintro ⟨p, hp⟩
  by_contra hn
  obtain ⟨v, hv⟩ := hok hn
  rw [hv] at hp
  exact Except.noConfusion hp

/-- C17: for rule "oneof", every field and every first parameter `s`, the
description is the field, " is not included in the list [", `s` itself and "]":
the pieces of `s` rendered with single spaces between them are `s` again, also
for the empty string and for leading, trailing or repeated spaces. -/
theorem oneof_brackets_raw_parameter (field s : String) (rest : List String) :
    NewFieldViolationWithRule field "oneof" (s :: rest)
        = .ok { field := field,
                description := field ++ " is not included in the list [" ++ s ++ "]" } ∧
      (⟨renderElems (Split s " ")⟩ : String) = s ∧
      NewFieldViolationWithRule "role" "oneof" [""]
        = .ok { field := "role", description := "role is not included in the list []" } ∧
      NewFieldViolationWithRule "role" "oneof" ["admin"]
        = .ok { field := "role", description := "role is not included in the list [admin]" } ∧
      NewFieldViolationWithRule "role" "oneof" [" a  b "]
        = .ok { field := "role", description := "role is not included in the list [ a  b ]" } := by
  refine ⟨?_, ?_, by decide, by decide, by decide⟩
  · rw [NewFieldViolationWithRule_oneof, intercalate_Split_space]
  · apply String.ext
    rw [Split_space, renderElems_splitAux_space]

/-- C18: two params lists with the same first element give the same result,
which is a violation; and for a rule that is not one of max, min, gt, gte, eq,
lt, lte, oneof (required, numeric, invalid and every unknown rule) all params
lists give the same violation. -/
theorem only_first_param_read (field rule c : String) (p q : List String) :
    NewFieldViolationWithRule field rule (c :: p)
        = NewFieldViolationWithRule field rule (c :: q) ∧
      (∃ v, NewFieldViolationWithRule field rule (c :: p) = .ok v ∧
        NewFieldViolationWithRule field rule (c :: q) = .ok v) ∧
      (rule ∉ ["max", "min", "gt", "gte", "eq", "lt", "lte", "oneof"] →
        ∃ v, ∀ params : List String, NewFieldViolationWithRule field rule params = .ok v) := by
  have heq : NewFieldViolationWithRule field rule (c :: p)
      = NewFieldViolationWithRule field rule (c :: q) := by
    rw [NewFieldViolationWithRule_head field rule c p, NewFieldViolationWithRule_head field rule c q]
  refine ⟨heq, ?_, ?_⟩
  · obtain ⟨suffix, _, hv⟩ := NewFieldViolationWithRule_cons_shape field rule c p
    exact ⟨_, hv, heq ▸ hv⟩
  · intro hr
    obtain ⟨_, suffix, _, hv⟩ := NewFieldViolationWithRule_no_index_shape field rule [] hr
    refine ⟨{ field := field, description := ⟨field.data ++ ' ' :: suffix⟩ }, fun params => ?_⟩
    rw [(NewFieldViolationWithRule_no_index_shape field rule params hr).1]
    exact hv

/-- C19: whenever `NewFieldViolationWithRule` returns a violation, its
serialized `Field` is the input field and its serialized `Description` is the
field, one space and a non-empty text: it begins with the field followed by a
space and is strictly longer than that. -/
theorem description_begins_with_field (field rule : String) (params : List String)
    (v : FieldViolation) (h : NewFieldViolationWithRule field rule params = .ok v) :
    v.Serialize.Field = field ∧
      (∃ suffix : String, suffix ≠ "" ∧ v.Serialize.Description = field ++ " " ++ suffix) ∧
      (field ++ " ").data <+: v.Serialize.Description.data ∧
      (field ++ " ").length < v.Serialize.Description.length := by
  have hshape : ∃ suffix : List Char, suffix ≠ [] ∧
      v = { field := field, description := ⟨field.data ++ ' ' :: suffix⟩ } := by
    cases params with
    | nil =>
      by_cases hr : rule ∈ ["max", "min", "gt", "gte", "eq", "lt", "lte", "oneof"]
      · rw [NewFieldViolationWithRule_nil_error field rule hr] at h
        exact Except.noConfusion h
      · obtain ⟨_, suffix, hne, hv⟩ := NewFieldViolationWithRule_no_index_shape field rule [] hr
        rw [hv] at h
        exact ⟨suffix, hne, (Except.ok.inj h).symm⟩
    | cons c rest =>
      obtain ⟨suffix, hne, hv⟩ := NewFieldViolationWithRule_cons_shape field rule c rest
      rw [hv] at h
      exact ⟨suffix, hne, (Except.ok.inj h).symm⟩
  obtain ⟨suffix, hne, rfl⟩ := hshape
  refine ⟨rfl, ⟨⟨suffix⟩, ?_, ?_⟩, ?_, ?_⟩
  · intro hs
    exact hne (congrArg String.data hs)
  · apply String.ext
    simp [FieldViolation.Serialize]
  · exact ⟨suffix, by simp [FieldViolation.Serialize]⟩
  · cases suffix with
    | nil => exact absurd rfl hne
    | cons d suffix =>
      show (field.data ++ [' ']).length < (field.data ++ ' ' :: d :: suffix).length
      simp

/-- Witness for C19: rule "gt" with the parameter "18". -/
theorem description_begins_with_field_witness :
    NewFieldViolationWithRule "age" "gt" ["18"]
        = .ok { field := "age", description := "age must be greater than 18" } ∧
      ((⟨"age", "age must be greater than 18"⟩ : FieldViolation).Serialize.Field = "age" ∧
        (∃ suffix : String, suffix ≠ "" ∧
          (⟨"age", "age must be greater than 18"⟩ : FieldViolation).Serialize.Description
            = "age" ++ " " ++ suffix) ∧
        ("age" ++ " ").data
          <+: (⟨"age", "age must be greater than 18"⟩ : FieldViolation).Serialize.Description.data ∧
        ("age" ++ " ").length
          < (⟨"age", "age must be greater than 18"⟩ : FieldViolation).Serialize.Description.length) :=
  ⟨by decide, description_begins_with_field "age" "gt" ["18"] _ (by decide)⟩

end Sin
